import Mathlib

/-!
Verification of the multi-dimensional sum-of-pairs alignment scorer
(Go package `mdp`, file `msa/mdp/mdp.go`).

The Go source is embedded shallowly:

* `Base`, `Sequence` mirror the Go types (`Base` is the enum A, C, G, T, X
  where X is the gap).
* The scoring constants, `pairScore`, `score`, the mask generation pipeline
  (`subsetHelper`, `purgeAllGapCase`, `arraysMatch`, `findSubsets`,
  `generateSubsetMasks`), and the index helpers (`maskedIdxs`, `maskedBases`,
  `sizes`, `maxIndices`, `decrementedIndices`) are direct translations.
* The memoized solver `optimalScore` is a method on a `multiDP` struct holding
  two `nd.Array` grids (an external dense-array dependency).  The grids are
  modelled as total maps `List Int -> Int` with Go zero-value default 0
  (`MemoState`); `optimalScoreMemo` threads that state explicitly.  Go's
  unbounded recursion is driven by a fuel parameter; the top-level entry
  points supply fuel `sumToNat idxs + 1`, which is proved sufficient below
  (the recursion strictly decreases the coordinate sum).
* `optimalScorePureF` is the same recurrence without the memo grids; it is
  proved to agree with the memoized run and is used for the algebraic claims.
* Go `int` arithmetic is modelled by `Int` (the scores reachable here are far
  from the 64-bit range); Go's variadic `max` starting from `math.MinInt64`
  is modelled literally by `maxInts`.
-/

/-- Go: `Base` enum; `X` represents a gap. -/
inductive Base where
  | A
  | C
  | G
  | T
  | X
deriving DecidableEq, Fintype, Repr

/-- Go: `Sequence` struct, a list of bases. -/
structure Sequence where
  bases : List Base
deriving DecidableEq, Repr

/-- Go: constant `match` (doubled score for two equal non-gap bases). -/
def matchScore : Int := 6

/-- Go: constant `mismatch`. -/
def mismatch : Int := -4

/-- Go: constant `gap`. -/
def gap : Int := -3

/-- Go: `pairScore`, the score of one unordered pair in a column. -/
def pairScore (b1 b2 : Base) : Int :=
  if b1 = Base.X ∧ b2 = Base.X then 0
  else if (b1 = Base.X ∧ b2 ≠ Base.X) ∨ (b2 = Base.X ∧ b1 ≠ Base.X) then gap
  else if b1 ≠ b2 then mismatch
  else matchScore

/-- Go: method `score` on `multiDP` (it ignores the receiver): sum of
`pairScore` over all unordered pairs of positions of the column.  The Go loop
slices `bases[0 : len-1]`, which would panic on an empty column; columns always
have length k >= 1 at every call site, where the loop computes exactly this
structural sum. -/
def score : List Base → Int
  | [] => 0
  | b :: rest => (rest.map (fun bj => pairScore b bj)).sum + score rest

/-- Go: `NewSequence`. -/
def NewSequence : Sequence := ⟨[]⟩

/-- Go: `convertStringBase` (anything outside A, C, G, T maps to the gap X). -/
def convertStringBase (b : Char) : Base :=
  if b = 'A' then Base.A
  else if b = 'C' then Base.C
  else if b = 'G' then Base.G
  else if b = 'T' then Base.T
  else Base.X

/-- Go: `convertStringSequence`. -/
def convertStringSequence (seq : String) : Sequence :=
  ⟨seq.toList.map convertStringBase⟩

/-- Go: `sizes`: per-sequence extent `len + 1`. -/
def sizes (s : List Sequence) : List Int :=
  s.map (fun seq => (seq.bases.length : Int) + 1)

/-- Go: `maxIndices`: the terminal coordinate, each component a length. -/
def maxIndices (s : List Sequence) : List Int :=
  (sizes s).map (fun size => size - 1)

/-- Go: `decrementedIndices`. -/
def decrementedIndices (idxs : List Int) : List Int :=
  idxs.map (fun i => i - 1)

/-- Go: `cpy`; Lean lists are immutable so copying is the identity. -/
def cpy (a : List Int) : List Int := a

/-- Go: `arraysMatch`: counts positions of `s1` where `s2` holds the same
value and compares the count with `length s1`.  The Go code indexes `s2[i]`
for `i < len s1`; at every call site both lists have equal length, where the
zip below visits exactly the same positions. -/
def arraysMatch (s1 s2 : List Int) : Bool :=
  ((s1.zip s2).countP (fun p => p.1 == p.2)) == s1.length

/-- Go: `subsetHelper idxs i`, recursing from position `i` down to `-1`.
The `Nat` argument `n` stands for `i + 1`, the number of positions still to
fill, so `subsetHelper idxs (i)` in Go is `subsetHelper idxs (i+1)` here and
the top-level call with `i = len - 1` becomes `n = len`. -/
def subsetHelper (idxs : List Int) : Nat → List (List Int)
  | 0 => [[]]
  | n + 1 =>
    let x := idxs.getD n 0
    (subsetHelper idxs n).flatMap (fun subset =>
      let s1 := cpy subset
      let s2 := cpy subset
      [s1 ++ [x], s2 ++ [x - 1]])

/-- Go: `purgeAllGapCase`: drop subsets equal to the decremented index
vector (for the all-ones input this drops the all-zero mask). -/
def purgeAllGapCase (idxs : List Int) (subsets : List (List Int)) : List (List Int) :=
  let si := decrementedIndices idxs
  subsets.filter (fun subset => !(arraysMatch subset si))

/-- Go: `findSubsets`. -/
def findSubsets (idxs : List Int) : List (List Int) :=
  purgeAllGapCase idxs (subsetHelper idxs idxs.length)

/-- Go: `generateSubsetMasks`: column masks for `numSeqCompared` sequences. -/
def generateSubsetMasks (numSeqCompared : Nat) : List (List Int) :=
  findSubsets (List.replicate numSeqCompared 1)

/-- Go: `maskedIdxs`: componentwise subtraction of a mask from a coordinate,
failing (`none`, Go `ok = false`) as soon as a component would go negative.
The Go code indexes `mask[i]` for `i < len idxs`; both lists have length k at
every call site, where `headD 0` and `tail` read exactly those entries. -/
def maskedIdxs : List Int → List Int → Option (List Int)
  | [], _ => some []
  | idx :: idxs, mask =>
    let x := idx - mask.headD 0
    if x < 0 then none
    else (maskedIdxs idxs mask.tail).map (fun mIdxs => x :: mIdxs)

/-- Go: method `maskedBases`: the column of bases selected by a mask at a
coordinate (bit 1 takes the base at logical position `idx`, bit 0 a gap).
Out-of-range reads would panic in Go and are unreachable; `getD` supplies the
gap as an arbitrary default there. -/
def maskedBases : List Sequence → List Int → List Int → List Base
  | _, [], _ => []
  | seqs, idx :: idxs, mask =>
    (if mask.headD 0 = 1 then
      ((seqs.headD NewSequence).bases).getD (idx - 1).toNat Base.X
     else Base.X)
      :: maskedBases seqs.tail idxs mask.tail

/-- Go: the variadic `max` helper, folding from `math.MinInt64`. -/
def maxInts (ints : List Int) : Int :=
  ints.foldl (fun m x => if x > m then x else m) (-(2 ^ 63))

/-- Sum of the non-negative parts of a coordinate; the recursion measure. -/
def sumToNat (l : List Int) : Nat :=
  (l.map Int.toNat).sum

/-- The two `nd.Array` grids of the Go `multiDP` struct: `table` holds scores,
`cached` holds the computed flags.  `nd.Array` is an external dense-array
package; a fresh array reads as the Go zero value 0 everywhere, so a grid is
modelled as a total map. -/
structure MemoState where
  table : List Int → Int
  cached : List Int → Int

/-- The grids of a freshly constructed `multiDP` (Go zero values). -/
def initState : MemoState :=
  ⟨fun _ => 0, fun _ => 0⟩

/-- Go: `nd.Array.Set`: point update of a grid. -/
def setGrid (g : List Int → Int) (v : Int) (c : List Int) : List Int → Int :=
  fun x => if x = c then v else g x

/-- Go: method `optimalScore` on `multiDP`, fuel-driven.  The struct fields
`seqs` and `subsetMasks` are the first two parameters; the two grids are the
threaded `MemoState`.  One unit of fuel is one recursion level; the top-level
wrappers supply fuel `sumToNat idxs + 1`, proved sufficient below. -/
def optimalScoreMemo (seqs : List Sequence) (masks : List (List Int)) :
    Nat → List Int → MemoState → Int × MemoState
  | 0, _, st => (0, st)
  | fuel + 1, idxs, st =>
    if idxs.any (fun i => decide (i ≤ 0)) then (0, st)
    else if st.cached idxs = 1 then (st.table idxs, st)
    else
      let p := masks.foldl
        (fun (acc : Int × MemoState) mask =>
          match maskedIdxs idxs mask with
          | none => acc
          | some mIdxs =>
            let r := optimalScoreMemo seqs masks fuel mIdxs acc.2
            (maxInts [acc.1, r.1 + score (maskedBases seqs idxs mask)], r.2))
        (0, st)
      (p.1, ⟨setGrid p.2.table p.1 idxs, setGrid p.2.cached 1 idxs⟩)

/-- The same recurrence with the memo grids erased: the value function of the
solver.  Proved below to agree with `optimalScoreMemo` run from `initState`. -/
def optimalScorePureF (seqs : List Sequence) (masks : List (List Int)) :
    Nat → List Int → Int
  | 0, _ => 0
  | fuel + 1, idxs =>
    if idxs.any (fun i => decide (i ≤ 0)) then 0
    else masks.foldl
      (fun best mask =>
        match maskedIdxs idxs mask with
        | none => best
        | some mIdxs =>
          maxInts [best,
            optimalScorePureF seqs masks fuel mIdxs
              + score (maskedBases seqs idxs mask)])
      0

/-- The solver value at a coordinate, with canonical sufficient fuel. -/
def optimalScorePure (seqs : List Sequence) (idxs : List Int) : Int :=
  optimalScorePureF seqs (generateSubsetMasks seqs.length) (sumToNat idxs + 1) idxs

/-- One memoized run at a coordinate from the fresh grids of `newMultiDP`. -/
def optimalScoreRun (seqs : List Sequence) (idxs : List Int) : Int × MemoState :=
  optimalScoreMemo seqs (generateSubsetMasks seqs.length) (sumToNat idxs + 1)
    idxs initState

/-- Go: method `solve`: run the solver at the terminal coordinate and halve
the doubled integer score.  Go converts to `float64`; the values reachable
here are exact in double precision, so the result is modelled in `Rat`. -/
def solve (seqs : List Sequence) : Rat :=
  ((optimalScoreRun seqs (maxIndices seqs)).1 : Rat) / 2

/-- Go: exported `Solve`: map the strings to sequences and solve. -/
def Solve (seqStrings : List String) : Rat :=
  solve (seqStrings.map convertStringSequence)

/-- Modelled from the spec, section 4.4 steps 2 and 3: the list of candidate
scores at a coordinate, one per mask of the Column-Mask Set whose predecessor
stays componentwise non-negative; each candidate is the recursively defined
optimal score of the predecessor plus the column score of the bases selected
by the mask.  Used to compare the solver against the spec's "maximum candidate
over all masks". -/
def specCandidates (seqs : List Sequence) (idxs : List Int) : List Int :=
  (generateSubsetMasks seqs.length).filterMap (fun mask =>
    (maskedIdxs idxs mask).map (fun mIdxs =>
      optimalScorePure seqs mIdxs + score (maskedBases seqs idxs mask)))

/-- Masks suitable for coordinates of length `L`: every mask is a nonzero
0/1 vector of length `L`.  `generateSubsetMasks L` satisfies this. -/
def MasksGood (L : Nat) (masks : List (List Int)) : Prop :=
  ∀ m ∈ masks, m.length = L ∧ (∀ x ∈ m, x = 0 ∨ x = 1) ∧ 1 ∈ m

/-- A memo state is consistent when every flagged coordinate stores the value
of the pure recurrence. -/
def Consistent (seqs : List Sequence) (masks : List (List Int))
    (st : MemoState) : Prop :=
  ∀ c, st.cached c = 1 →
    st.table c = optimalScorePureF seqs masks (sumToNat c + 1) c

example : generateSubsetMasks 2 = [[1, 1], [1, 0], [0, 1]] := by decide

/-! ### Basic facts about the Go `max` helper and fold shapes -/

theorem maxInts_pair (a b : Int) : maxInts [a, b] = max (max (-(2 ^ 63)) a) b := by
  simp only [maxInts, List.foldl, gt_iff_lt, ← max_def_lt]

theorem maxInts_pair_of_le {a : Int} (h : -(2 ^ 63) ≤ a) (b : Int) :
    maxInts [a, b] = max a b := by
  rw [maxInts_pair, max_eq_right h]

theorem le_maxInts_left (a b : Int) : a ≤ maxInts [a, b] := by
  rw [maxInts_pair]
  exact le_trans (le_max_right _ a) (le_max_left _ b)

theorem foldl_ext_mem {α β : Type} (f g : β → α → β) (l : List α)
    (H : ∀ acc x, x ∈ l → f acc x = g acc x) :
    ∀ a, l.foldl f a = l.foldl g a := by
  induction l with
  | nil => intro a; rfl
  | cons x xs ih =>
    intro a
    simp only [List.foldl]
    rw [H a x (List.mem_cons_self x xs)]
    exact ih (fun acc y hy => H acc y (List.mem_cons_of_mem x hy)) _

theorem foldl_max_perm {l1 l2 : List Int} (h : l1.Perm l2) :
    ∀ a, l1.foldl max a = l2.foldl max a := by
  induction h with
  | nil => intro a; rfl
  | cons x _ ih => intro a; simp only [List.foldl]; exact ih _
  | swap x y l =>
    intro a
    simp only [List.foldl]
    rw [max_assoc, max_comm y x, ← max_assoc]
  | trans _ _ ih1 ih2 => intro a; rw [ih1, ih2]

theorem le_foldl_of_step {α β : Type} [Preorder β] (f : β → α → β)
    (h : ∀ a x, a ≤ f a x) : ∀ (l : List α) (a : β), a ≤ l.foldl f a := by
  intro l
  induction l with
  | nil => intro a; exact le_refl a
  | cons x xs ih => intro a; exact le_trans (h a x) (ih (f a x))

/-! ### The base-case test and the masked predecessor -/

theorem any_le_zero_eq_false {idxs : List Int} :
    idxs.any (fun i => decide (i ≤ 0)) = false ↔ ∀ i ∈ idxs, 1 ≤ i := by
  simp only [List.any_eq_false, decide_eq_true_eq]
  exact ⟨fun h i hi => by have := h i hi; omega,
    fun h i hi => by have := h i hi; omega⟩

theorem sumToNat_cons (x : Int) (l : List Int) :
    sumToNat (x :: l) = x.toNat + sumToNat l := by
  simp [sumToNat]

theorem maskedIdxs_length {idxs mask r : List Int} :
    maskedIdxs idxs mask = some r → r.length = idxs.length := by
  induction idxs generalizing mask r with
  | nil =>
    intro h
    simp only [maskedIdxs, Option.some_inj] at h
    subst h
    rfl
  | cons idx idxs ih =>
    intro h
    simp only [maskedIdxs] at h
    split at h
    · exact absurd h (by simp)
    · rcases Option.map_eq_some'.mp h with ⟨r2, hr2, rfl⟩
      simp [ih hr2]

theorem maskedIdxs_sumToNat_le {idxs mask r : List Int}
    (h01 : ∀ x ∈ mask, x = 0 ∨ x = 1)
    (h : maskedIdxs idxs mask = some r) : sumToNat r ≤ sumToNat idxs := by
  induction idxs generalizing mask r with
  | nil =>
    simp only [maskedIdxs, Option.some_inj] at h
    subst h
    exact le_refl _
  | cons idx idxs ih =>
    simp only [maskedIdxs] at h
    split at h
    · exact absurd h (by simp)
    · rename_i hx
      rcases Option.map_eq_some'.mp h with ⟨r2, hr2, rfl⟩
      have hm0 : mask.headD 0 = 0 ∨ mask.headD 0 = 1 := by
        cases mask with
        | nil => exact Or.inl rfl
        | cons m ms => exact h01 m (List.mem_cons_self m ms)
      have ht := ih (fun x hx2 => h01 x (List.mem_of_mem_tail hx2)) hr2
      rw [sumToNat_cons, sumToNat_cons]
      have hhead : (idx - mask.headD 0).toNat ≤ idx.toNat := by omega
      omega

theorem maskedIdxs_sumToNat_lt {idxs mask r : List Int}
    (hb : idxs.any (fun i => decide (i ≤ 0)) = false)
    (h01 : ∀ x ∈ mask, x = 0 ∨ x = 1) (h1 : (1 : Int) ∈ mask)
    (hlen : mask.length = idxs.length)
    (h : maskedIdxs idxs mask = some r) : sumToNat r < sumToNat idxs := by
  induction idxs generalizing mask r with
  | nil =>
    rcases mask with _ | ⟨m, ms⟩
    · exact absurd h1 (by simp)
    · exact absurd hlen (by simp)
  | cons idx idxs ih =>
    rcases mask with _ | ⟨m, ms⟩
    · exact absurd h1 (by simp)
    · simp only [maskedIdxs, List.headD_cons, List.tail_cons] at h
      split at h
      · exact absurd h (by simp)
      · rename_i hx
        rcases Option.map_eq_some'.mp h with ⟨r2, hr2, rfl⟩
        have hidx : 1 ≤ idx :=
          (any_le_zero_eq_false.mp hb) idx (List.mem_cons_self _ _)
        have hbt : idxs.any (fun i => decide (i ≤ 0)) = false := by
          rw [any_le_zero_eq_false] at hb ⊢
          exact fun i hi => hb i (List.mem_cons_of_mem _ hi)
        have h01t : ∀ x ∈ ms, x = 0 ∨ x = 1 :=
          fun x hx2 => h01 x (List.mem_cons_of_mem _ hx2)
        rcases List.mem_cons.mp h1 with hm | hm
        · have hle := maskedIdxs_sumToNat_le h01t hr2
          rw [sumToNat_cons, sumToNat_cons]
          have hhead : (idx - m).toNat < idx.toNat := by omega
          omega
        · have hm0 : m = 0 ∨ m = 1 := h01 m (List.mem_cons_self _ _)
          have hlt := ih hbt h01t hm (by simpa using hlen) hr2
          rw [sumToNat_cons, sumToNat_cons]
          have hhead : (idx - m).toNat ≤ idx.toNat := by omega
          omega

/-! ### Characterization of the Column-Mask Set -/

theorem replicate_getD_one {k n : Nat} (h : n < k) :
    (List.replicate k (1 : Int)).getD n 0 = 1 := by
  rw [List.getD_eq_getElem _ _ (by simpa using h)]
  simp

theorem mem_subsetHelper {k : Nat} :
    ∀ {n : Nat}, n ≤ k → ∀ {m : List Int},
      (m ∈ subsetHelper (List.replicate k 1) n ↔
        m.length = n ∧ ∀ x ∈ m, x = 0 ∨ x = 1) := by
  intro n
  induction n with
  | zero =>
    intro _ m
    simp only [subsetHelper, List.mem_singleton]
    constructor
    · rintro rfl
      exact ⟨rfl, by simp⟩
    · rintro ⟨hl, _⟩
      exact List.length_eq_zero.mp hl
  | succ n ihn =>
    intro hn m
    have hx1 : (List.replicate k (1 : Int)).getD n 0 = 1 :=
      replicate_getD_one (by omega)
    simp only [subsetHelper, hx1, cpy, List.mem_flatMap, List.mem_cons,
      List.mem_singleton, List.not_mem_nil, or_false]
    constructor
    · rintro ⟨s, hs, hm⟩
      have hsc := (ihn (by omega)).mp hs
      rcases hm with rfl | rfl
      · refine ⟨by simp [hsc.1], fun x hx => ?_⟩
        rcases List.mem_append.mp hx with hx | hx
        · exact hsc.2 x hx
        · right
          simpa using hx
      · refine ⟨by simp [hsc.1], fun x hx => ?_⟩
        rcases List.mem_append.mp hx with hx | hx
        · exact hsc.2 x hx
        · left
          have : x = 1 - 1 := by simpa using hx
          omega
    · rintro ⟨hl, h01⟩
      rcases List.eq_nil_or_concat' m with rfl | ⟨s, x, rfl⟩
      · exact absurd hl (by simp)
      · have hsl : s.length = n := by
          simpa using hl
        have hs01 : ∀ y ∈ s, y = 0 ∨ y = 1 :=
          fun y hy => h01 y (List.mem_append.mpr (Or.inl hy))
        have hx01 : x = 0 ∨ x = 1 :=
          h01 x (List.mem_append.mpr (Or.inr (by simp)))
        refine ⟨s, (ihn (by omega)).mpr ⟨hsl, hs01⟩, ?_⟩
        rcases hx01 with rfl | rfl
        · right
          norm_num
        · exact Or.inl rfl

theorem length_mem_subsetHelper {k n : Nat} (hn : n ≤ k) {m : List Int}
    (h : m ∈ subsetHelper (List.replicate k 1) n) : m.length = n :=
  ((mem_subsetHelper hn).mp h).1

theorem nodup_subsetHelper {k : Nat} :
    ∀ {n : Nat}, n ≤ k → (subsetHelper (List.replicate k 1) n).Nodup := by
  intro n
  induction n with
  | zero =>
    intro _
    simp [subsetHelper]
  | succ n ihn =>
    intro hn
    have hx1 : (List.replicate k (1 : Int)).getD n 0 = 1 :=
      replicate_getD_one (by omega)
    simp only [subsetHelper, hx1, cpy]
    rw [List.nodup_flatMap]
    refine ⟨fun s _ => ?_, ?_⟩
    · simp
    · have hnd := ihn (by omega : n ≤ k)
      apply List.Pairwise.imp_of_mem _ hnd
      intro a b ha hb hne
      simp only [Function.onFun]
      intro z hza hzb
      have hal : a.length = n := length_mem_subsetHelper (by omega) ha
      have hbl : b.length = n := length_mem_subsetHelper (by omega) hb
      simp only [List.mem_cons, List.mem_singleton, List.not_mem_nil,
        or_false] at hza hzb
      have hab : a = b := by
        rcases hza with rfl | rfl <;> rcases hzb with h2 | h2 <;>
          exact (List.append_inj h2 (by omega)).1
      exact hne hab

theorem length_flatMap_pair {α β : Type} (f g : α → List β) (l : List α) :
    (l.flatMap (fun s => [f s, g s])).length = 2 * l.length := by
  induction l with
  | nil => rfl
  | cons x xs ih =>
    simp only [List.flatMap_cons, List.length_append, ih, List.length_cons,
      List.length_nil]
    omega

theorem length_subsetHelper {k : Nat} :
    ∀ n : Nat, (subsetHelper (List.replicate k 1) n).length = 2 ^ n := by
  intro n
  induction n with
  | zero => rfl
  | succ n ih =>
    simp only [subsetHelper, cpy]
    rw [length_flatMap_pair (fun s => s ++ [(List.replicate k (1 : Int)).getD n 0])
      (fun s => s ++ [(List.replicate k (1 : Int)).getD n 0 - 1]), ih, pow_succ]
    omega

theorem decrementedIndices_replicate (k : Nat) :
    decrementedIndices (List.replicate k 1) = List.replicate k 0 := by
  simp [decrementedIndices, List.map_replicate]

theorem mem_zip_self {l : List Int} {p : Int × Int} (hp : p ∈ l.zip l) :
    p.1 = p.2 := by
  induction l with
  | nil => cases hp
  | cons x xs ih =>
    rw [List.zip_cons_cons] at hp
    rcases List.mem_cons.mp hp with rfl | hp2
    · rfl
    · exact ih hp2

theorem arraysMatch_iff_eq {s1 s2 : List Int} (h : s1.length = s2.length) :
    (arraysMatch s1 s2 = true ↔ s1 = s2) := by
  simp only [arraysMatch, beq_iff_eq]
  rw [show s1.length = (s1.zip s2).length by simp [List.length_zip, h]]
  rw [List.countP_eq_length]
  constructor
  · intro hall
    apply List.ext_getElem h
    intro i h1 h2
    have hil : i < (s1.zip s2).length := by
      rw [List.length_zip]
      omega
    have hm := hall ((s1.zip s2)[i]) (List.getElem_mem _)
    rw [List.getElem_zip] at hm
    simpa using hm
  · rintro rfl
    intro p hp
    simpa using mem_zip_self hp

theorem mem_generateSubsetMasks {k : Nat} {m : List Int} :
    m ∈ generateSubsetMasks k ↔
      m.length = k ∧ (∀ x ∈ m, x = 0 ∨ x = 1) ∧ m ≠ List.replicate k 0 := by
  unfold generateSubsetMasks findSubsets purgeAllGapCase
  simp only [decrementedIndices_replicate, List.length_replicate,
    List.mem_filter]
  constructor
  · rintro ⟨hmem, hfil⟩
    have hc := (mem_subsetHelper (le_refl k)).mp hmem
    refine ⟨hc.1, hc.2, ?_⟩
    intro heq
    rw [(arraysMatch_iff_eq (by simp [hc.1])).2 heq] at hfil
    exact absurd hfil (by simp)
  · rintro ⟨h1, h2, h3⟩
    refine ⟨(mem_subsetHelper (le_refl k)).mpr ⟨h1, h2⟩, ?_⟩
    cases hA : arraysMatch m (List.replicate k 0) with
    | false => simp
    | true => exact absurd ((arraysMatch_iff_eq (by simp [h1])).mp hA) h3

theorem one_mem_of_mask {k : Nat} {m : List Int} (h1 : m.length = k)
    (h2 : ∀ x ∈ m, x = 0 ∨ x = 1) (h3 : m ≠ List.replicate k 0) :
    (1 : Int) ∈ m := by
  by_contra h4
  apply h3
  rw [List.eq_replicate_iff]
  refine ⟨h1, fun b hb => ?_⟩
  rcases h2 b hb with rfl | rfl
  · rfl
  · exact absurd hb h4

theorem masksGood_generateSubsetMasks (k : Nat) :
    MasksGood k (generateSubsetMasks k) := by
  intro m hm
  rcases mem_generateSubsetMasks.mp hm with ⟨h1, h2, h3⟩
  exact ⟨h1, h2, one_mem_of_mask h1 h2 h3⟩

theorem nodup_generateSubsetMasks (k : Nat) : (generateSubsetMasks k).Nodup := by
  unfold generateSubsetMasks findSubsets purgeAllGapCase
  exact List.Nodup.filter _ (by simpa using nodup_subsetHelper (le_refl k))

theorem length_generateSubsetMasks (k : Nat) :
    (generateSubsetMasks k).length = 2 ^ k - 1 := by
  unfold generateSubsetMasks findSubsets purgeAllGapCase
  simp only [decrementedIndices_replicate, List.length_replicate]
  have hzmem : List.replicate k (0 : Int) ∈ subsetHelper (List.replicate k 1) k :=
    (mem_subsetHelper (le_refl k)).mpr ⟨by simp, by simp⟩
  have hnd := nodup_subsetHelper (le_refl k) (k := k)
  have hcongr : (subsetHelper (List.replicate k 1) k).filter
      (fun m => !(arraysMatch m (List.replicate k 0)))
      = (subsetHelper (List.replicate k 1) k).filter
        (fun m => m != List.replicate k 0) := by
    apply List.filter_congr
    intro m hm
    have hml : m.length = k := length_mem_subsetHelper (le_refl k) hm
    cases hA : arraysMatch m (List.replicate k 0) with
    | false =>
      have hne : m ≠ List.replicate k 0 := fun heq => by
        rw [(arraysMatch_iff_eq (by simp [hml])).2 heq] at hA
        cases hA
      simp [bne_iff_ne, hne]
    | true =>
      have heq := (arraysMatch_iff_eq (by simp [hml])).mp hA
      simp [heq]
  rw [hcongr, ← List.Nodup.erase_eq_filter hnd,
    List.length_erase_of_mem hzmem, length_subsetHelper]

/-! ### Fuel stability of the pure recurrence -/

theorem optimalScorePureF_stable (seqs : List Sequence) (masks : List (List Int))
    {L : Nat} (hgood : MasksGood L masks) :
    ∀ (f g : Nat) (idxs : List Int), idxs.length = L →
      sumToNat idxs < f → sumToNat idxs < g →
      optimalScorePureF seqs masks f idxs = optimalScorePureF seqs masks g idxs := by
  intro f
  induction f with
  | zero =>
    intro g idxs _ hf
    exact absurd hf (Nat.not_lt_zero _)
  | succ f ihf =>
    intro g idxs hlen hf hgg
    cases g with
    | zero => exact absurd hgg (Nat.not_lt_zero _)
    | succ g =>
      simp only [optimalScorePureF]
      cases hb : idxs.any (fun i => decide (i ≤ 0)) with
      | true => simp [hb]
      | false =>
        simp only [hb, Bool.false_eq_true, if_false]
        apply foldl_ext_mem
        intro acc mask hmask
        cases hmi : maskedIdxs idxs mask with
        | none => simp [hmi]
        | some mIdxs =>
          simp only [hmi]
          have hprops := hgood mask hmask
          have hlt : sumToNat mIdxs < sumToNat idxs :=
            maskedIdxs_sumToNat_lt hb hprops.2.1 hprops.2.2
              (by rw [hprops.1, hlen]) hmi
          have hlen2 : mIdxs.length = L := by rw [maskedIdxs_length hmi, hlen]
          rw [ihf g mIdxs hlen2 (by omega) (by omega)]

/-! ### The fold over masks, rewritten through the candidate list -/

theorem foldl_masks_eq_foldl_max (seqs : List Sequence) (idxs : List Int)
    (rec : List Int → Int) :
    ∀ (masks : List (List Int)) (a : Int), 0 ≤ a →
      masks.foldl
        (fun best mask =>
          match maskedIdxs idxs mask with
          | none => best
          | some mIdxs =>
            maxInts [best, rec mIdxs + score (maskedBases seqs idxs mask)]) a
      = (masks.filterMap (fun mask =>
          (maskedIdxs idxs mask).map (fun mIdxs =>
            rec mIdxs + score (maskedBases seqs idxs mask)))).foldl max a := by
  intro masks
  induction masks with
  | nil => intro a _; rfl
  | cons mask ms ih =>
    intro a ha
    cases hmi : maskedIdxs idxs mask with
    | none =>
      simp only [List.foldl, List.filterMap_cons, hmi, Option.map_none']
      exact ih a ha
    | some mIdxs =>
      simp only [List.foldl, List.filterMap_cons, hmi, Option.map_some']
      rw [maxInts_pair_of_le (by omega)]
      exact ih _ (le_trans ha (le_max_left _ _))

/-! ### Non-negativity of every computed value -/

theorem optimalScorePureF_nonneg (seqs : List Sequence) (masks : List (List Int)) :
    ∀ (fuel : Nat) (idxs : List Int), 0 ≤ optimalScorePureF seqs masks fuel idxs := by
  intro fuel
  induction fuel with
  | zero =>
    intro idxs
    exact le_refl 0
  | succ fuel ih =>
    intro idxs
    simp only [optimalScorePureF]
    split
    · exact le_refl 0
    · apply le_foldl_of_step
      intro a mask
      cases hmi : maskedIdxs idxs mask with
      | none => simp [hmi]
      | some mIdxs =>
        simp only [hmi]
        exact le_maxInts_left _ _

/-! ### The canonical one-step recurrence of the pure solver -/

theorem optimalScorePureF_recurrence (seqs : List Sequence)
    (masks : List (List Int)) {L : Nat} (hgood : MasksGood L masks)
    {idxs : List Int} (hlen : idxs.length = L)
    (hb : idxs.any (fun i => decide (i ≤ 0)) = false) :
    optimalScorePureF seqs masks (sumToNat idxs + 1) idxs
      = masks.foldl
        (fun best mask =>
          match maskedIdxs idxs mask with
          | none => best
          | some mIdxs =>
            maxInts [best, optimalScorePureF seqs masks (sumToNat mIdxs + 1) mIdxs
              + score (maskedBases seqs idxs mask)]) 0 := by
  conv_lhs => rw [optimalScorePureF]
  simp only [hb, Bool.false_eq_true, if_false]
  apply foldl_ext_mem
  intro acc mask hmask
  cases hmi : maskedIdxs idxs mask with
  | none => simp [hmi]
  | some mIdxs =>
    simp only [hmi]
    have hprops := hgood mask hmask
    have hlt : sumToNat mIdxs < sumToNat idxs :=
      maskedIdxs_sumToNat_lt hb hprops.2.1 hprops.2.2
        (by rw [hprops.1, hlen]) hmi
    have hlen2 : mIdxs.length = L := by rw [maskedIdxs_length hmi, hlen]
    rw [optimalScorePureF_stable seqs masks hgood (sumToNat idxs)
      (sumToNat mIdxs + 1) mIdxs hlen2 (by omega) (by omega)]

/-! ### Behaviour of the memoized solver -/

theorem optimalScoreMemo_base (seqs : List Sequence) (masks : List (List Int))
    (fuel : Nat) {idxs : List Int} (st : MemoState)
    (hb : idxs.any (fun i => decide (i ≤ 0)) = true) :
    optimalScoreMemo seqs masks fuel idxs st = (0, st) := by
  cases fuel with
  | zero => rfl
  | succ fuel => simp [optimalScoreMemo, hb]

theorem optimalScoreMemo_hit (seqs : List Sequence) (masks : List (List Int))
    (fuel : Nat) {idxs : List Int} {st : MemoState}
    (hb : idxs.any (fun i => decide (i ≤ 0)) = false)
    (hc : st.cached idxs = 1) :
    optimalScoreMemo seqs masks (fuel + 1) idxs st = (st.table idxs, st) := by
  simp [optimalScoreMemo, hb, hc]

theorem memoFold_preserves (seqs : List Sequence) (masks : List (List Int))
    (fuel : Nat) (idxs : List Int)
    (hrec : ∀ (idxs2 : List Int) (st2 : MemoState) (c : List Int),
      st2.cached c = 1 →
      (optimalScoreMemo seqs masks fuel idxs2 st2).2.cached c = 1 ∧
      (optimalScoreMemo seqs masks fuel idxs2 st2).2.table c = st2.table c) :
    ∀ (ms : List (List Int)) (acc : Int × MemoState) (c : List Int),
      acc.2.cached c = 1 →
      ((List.foldl
          (fun (acc : Int × MemoState) mask =>
            match maskedIdxs idxs mask with
            | none => acc
            | some mIdxs =>
              let r := optimalScoreMemo seqs masks fuel mIdxs acc.2
              (maxInts [acc.1, r.1 + score (maskedBases seqs idxs mask)], r.2))
          acc ms).2.cached c = 1 ∧
       (List.foldl
          (fun (acc : Int × MemoState) mask =>
            match maskedIdxs idxs mask with
            | none => acc
            | some mIdxs =>
              let r := optimalScoreMemo seqs masks fuel mIdxs acc.2
              (maxInts [acc.1, r.1 + score (maskedBases seqs idxs mask)], r.2))
          acc ms).2.table c = acc.2.table c) := by
  intro ms
  induction ms with
  | nil =>
    intro acc c hc
    exact ⟨hc, rfl⟩
  | cons mask ms ih =>
    intro acc c hc
    simp only [List.foldl]
    cases hmi : maskedIdxs idxs mask with
    | none =>
      simp only [hmi]
      exact ih acc c hc
    | some mIdxs =>
      simp only [hmi]
      have hr := hrec mIdxs acc.2 c hc
      have hstep := ih (maxInts [acc.1,
          (optimalScoreMemo seqs masks fuel mIdxs acc.2).1
            + score (maskedBases seqs idxs mask)],
        (optimalScoreMemo seqs masks fuel mIdxs acc.2).2) c hr.1
      exact ⟨hstep.1, hstep.2.trans hr.2⟩

theorem optimalScoreMemo_preserves (seqs : List Sequence)
    (masks : List (List Int)) :
    ∀ (fuel : Nat) (idxs : List Int) (st : MemoState) (c : List Int),
      st.cached c = 1 →
      (optimalScoreMemo seqs masks fuel idxs st).2.cached c = 1 ∧
      (optimalScoreMemo seqs masks fuel idxs st).2.table c = st.table c := by
  intro fuel
  induction fuel with
  | zero =>
    intro idxs st c hc
    exact ⟨hc, rfl⟩
  | succ fuel ih =>
    intro idxs st c hc
    cases hb : idxs.any (fun i => decide (i ≤ 0)) with
    | true =>
      rw [optimalScoreMemo_base seqs masks (fuel + 1) st hb]
      exact ⟨hc, rfl⟩
    | false =>
      by_cases hcache : st.cached idxs = 1
      · rw [optimalScoreMemo_hit seqs masks fuel hb hcache]
        exact ⟨hc, rfl⟩
      · have hne : c ≠ idxs := fun heq => hcache (heq ▸ hc)
        simp only [optimalScoreMemo, hb, Bool.false_eq_true, if_false,
          if_neg hcache]
        have hfold := memoFold_preserves seqs masks fuel idxs
          (fun idxs2 st2 c2 hc2 => ih idxs2 st2 c2 hc2) masks (0, st) c hc
        refine ⟨?_, ?_⟩
        · show setGrid _ 1 idxs c = 1
          unfold setGrid
          by_cases hci : c = idxs
          · simp [hci]
          · simp only [if_neg hci]
            exact hfold.1
        · show setGrid _ _ idxs c = st.table c
          unfold setGrid
          rw [if_neg hne]
          exact hfold.2

theorem memoFold_agrees (seqs : List Sequence) (masks : List (List Int))
    {L : Nat} (hgood : MasksGood L masks) (fuel : Nat) (idxs : List Int)
    (hlen : idxs.length = L)
    (hb : idxs.any (fun i => decide (i ≤ 0)) = false)
    (hf : sumToNat idxs < fuel + 1)
    (ih : ∀ (idxs2 : List Int) (st2 : MemoState), idxs2.length = L →
      sumToNat idxs2 < fuel → Consistent seqs masks st2 →
      (optimalScoreMemo seqs masks fuel idxs2 st2).1
        = optimalScorePureF seqs masks (sumToNat idxs2 + 1) idxs2 ∧
      Consistent seqs masks (optimalScoreMemo seqs masks fuel idxs2 st2).2) :
    ∀ (ms : List (List Int)), (∀ m ∈ ms, m ∈ masks) →
      ∀ (a : Int) (st : MemoState), Consistent seqs masks st →
      ((List.foldl
          (fun (acc : Int × MemoState) mask =>
            match maskedIdxs idxs mask with
            | none => acc
            | some mIdxs =>
              let r := optimalScoreMemo seqs masks fuel mIdxs acc.2
              (maxInts [acc.1, r.1 + score (maskedBases seqs idxs mask)], r.2))
          (a, st) ms).1
        = List.foldl
            (fun best mask =>
              match maskedIdxs idxs mask with
              | none => best
              | some mIdxs =>
                maxInts [best,
                  optimalScorePureF seqs masks (sumToNat mIdxs + 1) mIdxs
                    + score (maskedBases seqs idxs mask)]) a ms ∧
       Consistent seqs masks
        (List.foldl
          (fun (acc : Int × MemoState) mask =>
            match maskedIdxs idxs mask with
            | none => acc
            | some mIdxs =>
              let r := optimalScoreMemo seqs masks fuel mIdxs acc.2
              (maxInts [acc.1, r.1 + score (maskedBases seqs idxs mask)], r.2))
          (a, st) ms).2) := by
  intro ms
  induction ms with
  | nil =>
    intro _ a st hcons
    exact ⟨rfl, hcons⟩
  | cons mask ms ihm =>
    intro hms a st hcons
    have hmask : mask ∈ masks := hms mask (List.mem_cons_self _ _)
    have hmst : ∀ m ∈ ms, m ∈ masks :=
      fun m hm => hms m (List.mem_cons_of_mem _ hm)
    simp only [List.foldl]
    cases hmi : maskedIdxs idxs mask with
    | none =>
      simp only [hmi]
      exact ihm hmst a st hcons
    | some mIdxs =>
      simp only [hmi]
      have hprops := hgood mask hmask
      have hlt : sumToNat mIdxs < sumToNat idxs :=
        maskedIdxs_sumToNat_lt hb hprops.2.1 hprops.2.2
          (by rw [hprops.1, hlen]) hmi
      have hlen2 : mIdxs.length = L := by rw [maskedIdxs_length hmi, hlen]
      have hrec := ih mIdxs st hlen2 (by omega) hcons
      have hstep := ihm hmst
        (maxInts [a, (optimalScoreMemo seqs masks fuel mIdxs st).1
          + score (maskedBases seqs idxs mask)])
        (optimalScoreMemo seqs masks fuel mIdxs st).2 hrec.2
      refine ⟨?_, hstep.2⟩
      rw [hstep.1, hrec.1]

theorem optimalScoreMemo_agrees (seqs : List Sequence) (masks : List (List Int))
    {L : Nat} (hgood : MasksGood L masks) :
    ∀ (fuel : Nat) (idxs : List Int) (st : MemoState),
      idxs.length = L → sumToNat idxs < fuel → Consistent seqs masks st →
      (optimalScoreMemo seqs masks fuel idxs st).1
        = optimalScorePureF seqs masks (sumToNat idxs + 1) idxs ∧
      Consistent seqs masks (optimalScoreMemo seqs masks fuel idxs st).2 := by
  intro fuel
  induction fuel with
  | zero =>
    intro idxs st _ hf
    exact absurd hf (Nat.not_lt_zero _)
  | succ fuel ih =>
    intro idxs st hlen hf hcons
    cases hb : idxs.any (fun i => decide (i ≤ 0)) with
    | true =>
      rw [optimalScoreMemo_base seqs masks (fuel + 1) st hb]
      constructor
      · conv_rhs => rw [optimalScorePureF]
        simp [hb]
      · exact hcons
    | false =>
      by_cases hcache : st.cached idxs = 1
      · rw [optimalScoreMemo_hit seqs masks fuel hb hcache]
        exact ⟨hcons idxs hcache, hcons⟩
      · have hfold := memoFold_agrees seqs masks hgood fuel idxs hlen hb hf
          (fun idxs2 st2 h1 h2 h3 => ih idxs2 st2 h1 h2 h3)
          masks (fun m hm => hm) 0 st hcons
        have hpure := optimalScorePureF_recurrence seqs masks hgood hlen hb
        simp only [optimalScoreMemo, hb, Bool.false_eq_true, if_false,
          if_neg hcache]
        refine ⟨?_, ?_⟩
        · rw [hfold.1, hpure]
        · intro c hc
          by_cases hci : c = idxs
          · subst hci
            show setGrid _ _ c c = _
            unfold setGrid
            rw [if_pos rfl, hfold.1, hpure]
          · simp only [setGrid, hci, if_false] at hc
            simp only [setGrid, hci, if_false]
            exact hfold.2 c hc

/-! ### Bridging the memoized run and the pure value -/

theorem Consistent_initState (seqs : List Sequence) (masks : List (List Int)) :
    Consistent seqs masks initState := by
  intro c hc
  simp [initState] at hc

theorem optimalScoreRun_eq_pure (seqs : List Sequence) {idxs : List Int}
    (hlen : idxs.length = seqs.length) :
    (optimalScoreRun seqs idxs).1 = optimalScorePure seqs idxs := by
  unfold optimalScoreRun optimalScorePure
  exact (optimalScoreMemo_agrees seqs (generateSubsetMasks seqs.length)
    (masksGood_generateSubsetMasks seqs.length) (sumToNat idxs + 1) idxs
    initState hlen (by omega) (Consistent_initState _ _)).1

theorem maxIndices_length (seqs : List Sequence) :
    (maxIndices seqs).length = seqs.length := by
  simp [maxIndices, sizes]

theorem solve_eq_pure (seqs : List Sequence) :
    solve seqs = ((optimalScorePure seqs (maxIndices seqs) : Int) : Rat) / 2 := by
  unfold solve
  rw [optimalScoreRun_eq_pure seqs (maxIndices_length seqs)]

theorem Solve_nonneg (seqStrings : List String) : 0 ≤ Solve seqStrings := by
  unfold Solve
  rw [solve_eq_pure]
  have h0 : (0 : Int) ≤
      optimalScorePure (seqStrings.map convertStringSequence)
        (maxIndices (seqStrings.map convertStringSequence)) :=
    optimalScorePureF_nonneg _ _ _ _
  apply div_nonneg
  · exact_mod_cast h0
  · norm_num

theorem pureF_single (seq : Sequence) :
    ∀ (fuel : Nat) (i : Int), optimalScorePureF [seq] [[1]] fuel [i] = 0 := by
  intro fuel
  induction fuel with
  | zero => intro i; rfl
  | succ fuel ih =>
    intro i
    simp only [optimalScorePureF]
    by_cases hb : i ≤ 0
    · rw [if_pos (by simp [hb])]
    · rw [if_neg (by simp [hb])]
      have hmi : maskedIdxs [i] [1] = some [i - 1] := by
        simp only [maskedIdxs, List.headD_cons, List.tail_cons]
        rw [if_neg (by omega)]
        rfl
      have hsc : score (maskedBases [seq] [i] [1]) = 0 := by
        simp [maskedBases, score]
      simp only [List.foldl, hmi, hsc, ih]
      decide

/-! ### The claims -/

/-- Claim C2: for every k at least 1, the Column-Mask Set has exactly
2 to-the k minus 1 elements, every element is a length-k vector over 0/1 with
at least one bit set, the all-zero vector is never a member, and every
non-zero k-bit pattern appears exactly once. -/
theorem claim_C2 (k : Nat) (_hk : 1 ≤ k) :
    (generateSubsetMasks k).length = 2 ^ k - 1 ∧
    (∀ m ∈ generateSubsetMasks k,
      m.length = k ∧ (∀ x ∈ m, x = 0 ∨ x = 1) ∧ (1 : Int) ∈ m) ∧
    List.replicate k 0 ∉ generateSubsetMasks k ∧
    (∀ m : List Int, m.length = k → (∀ x ∈ m, x = 0 ∨ x = 1) →
      m ≠ List.replicate k 0 →
      (generateSubsetMasks k).countP (fun x => decide (x = m)) = 1) := by
  refine ⟨length_generateSubsetMasks k, masksGood_generateSubsetMasks k, ?_, ?_⟩
  · intro hmem
    exact (mem_generateSubsetMasks.mp hmem).2.2 rfl
  · intro m h1 h2 h3
    exact List.count_eq_one_of_mem (nodup_generateSubsetMasks k)
      (mem_generateSubsetMasks.mpr ⟨h1, h2, h3⟩)

theorem claim_C2_witness :
    1 ≤ 3 ∧
    ((generateSubsetMasks 3).length = 2 ^ 3 - 1 ∧
     (∀ m ∈ generateSubsetMasks 3,
       m.length = 3 ∧ (∀ x ∈ m, x = 0 ∨ x = 1) ∧ (1 : Int) ∈ m) ∧
     List.replicate 3 0 ∉ generateSubsetMasks 3 ∧
     (∀ m : List Int, m.length = 3 → (∀ x ∈ m, x = 0 ∨ x = 1) →
       m ≠ List.replicate 3 0 →
       (generateSubsetMasks 3).countP (fun x => decide (x = m)) = 1)) :=
  ⟨by decide, claim_C2 3 (by decide)⟩

set_option maxRecDepth 80000 in
/-- Claim C3: Solve applied to the list AG, AC returns exactly 1. -/
theorem claim_C3 : Solve ["AG", "AC"] = 1 := by
  have h : (optimalScoreRun (["AG", "AC"].map convertStringSequence)
      (maxIndices (["AG", "AC"].map convertStringSequence))).1 = 2 := by decide
  unfold Solve solve
  rw [h]
  norm_num

/-- Claim C4: whenever a coordinate has a zero component, the solver returns 0
immediately, for every fuel, every mask set and every memo state (in
particular the grids are returned untouched and never read). -/
theorem claim_C4 (seqs : List Sequence) (masks : List (List Int)) (fuel : Nat)
    (idxs : List Int) (st : MemoState) (h : (0 : Int) ∈ idxs) :
    optimalScoreMemo seqs masks fuel idxs st = (0, st) := by
  apply optimalScoreMemo_base
  rw [List.any_eq_true]
  exact ⟨0, h, by decide⟩

theorem claim_C4_witness :
    (0 : Int) ∈ [(0 : Int), 3] ∧
    optimalScoreMemo [] [[1, 1]] 5 [0, 3]
        ⟨fun _ => 7, fun _ => 1⟩ = (0, ⟨fun _ => 7, fun _ => 1⟩) :=
  ⟨by decide, claim_C4 [] [[1, 1]] 5 [0, 3] ⟨fun _ => 7, fun _ => 1⟩ (by decide)⟩

/-- Claim C5: Solve never returns a negative score, and every value of the
recurrence is non-negative (the running best starts at 0 before any mask
candidate is considered). -/
theorem claim_C5 (seqStrings : List String) :
    0 ≤ Solve seqStrings ∧
    ∀ (seqs : List Sequence) (masks : List (List Int)) (fuel : Nat)
      (idxs : List Int), 0 ≤ optimalScorePureF seqs masks fuel idxs :=
  ⟨Solve_nonneg seqStrings,
    fun seqs masks fuel idxs => optimalScorePureF_nonneg seqs masks fuel idxs⟩

/-- Claim C6: pairScore is symmetric, and returns 6 on equal non-gap bases,
minus 4 on distinct non-gap bases, minus 3 when exactly one side is the gap,
and 0 when both sides are the gap. -/
theorem claim_C6 :
    ∀ b1 b2 : Base,
      pairScore b1 b2 = pairScore b2 b1 ∧
      pairScore b1 b2 =
        (if b1 = Base.X ∧ b2 = Base.X then 0
         else if b1 = Base.X ∨ b2 = Base.X then -3
         else if b1 = b2 then 6 else -4) := by
  decide

/-- Claim C7: for a single input sequence, Solve returns 0 whatever the
content, and the Column-Mask Set is exactly the single mask 1. -/
theorem claim_C7 (s : String) :
    Solve [s] = 0 ∧ generateSubsetMasks 1 = [[1]] := by
  constructor
  · unfold Solve
    simp only [List.map_cons, List.map_nil]
    rw [solve_eq_pure]
    have h : optimalScorePure [convertStringSequence s]
        (maxIndices [convertStringSequence s]) = 0 := by
      unfold optimalScorePure
      have h1 : [convertStringSequence s].length = 1 := rfl
      rw [h1, show generateSubsetMasks 1 = [[1]] by decide]
      have h2 : maxIndices [convertStringSequence s]
          = [((convertStringSequence s).bases.length : Int)] := by
        simp [maxIndices, sizes]
      rw [h2]
      exact pureF_single _ _ _
    rw [h]
    norm_num
  · decide

set_option maxRecDepth 80000 in
/-- Claim C1, counterexample: at the terminal coordinate of
Solve on the two sequences A and C, the maximum candidate over all masks is
minus 3, yet the solver computes 0 (the running best starts at 0), so the
computed value is not the maximum candidate. -/
theorem claim_C1_counterexample :
    (specCandidates [convertStringSequence "A", convertStringSequence "C"]
        [1, 1]).max? = some (-3) ∧
    (optimalScoreRun [convertStringSequence "A", convertStringSequence "C"]
        [1, 1]).1 = 0 ∧
    (optimalScoreRun [convertStringSequence "A", convertStringSequence "C"]
        [1, 1]).1 ≠ -3 := by
  exact ⟨by decide, by decide, by decide⟩

/-- Claim C1 (amended): for every non-base coordinate of matching length, the
value computed by the memoized solver equals the maximum of 0 and all mask
candidates (the fold of max over the candidate list starting at the initial
best 0), and the output of Solve is never negative. -/
theorem claim_C1_amended (seqs : List Sequence) (idxs : List Int)
    (hlen : idxs.length = seqs.length)
    (hb : idxs.any (fun i => decide (i ≤ 0)) = false) :
    (optimalScoreRun seqs idxs).1 = (specCandidates seqs idxs).foldl max 0 ∧
    ∀ strs : List String, 0 ≤ Solve strs := by
  constructor
  · rw [optimalScoreRun_eq_pure seqs hlen]
    unfold optimalScorePure
    rw [optimalScorePureF_recurrence seqs (generateSubsetMasks seqs.length)
      (masksGood_generateSubsetMasks seqs.length) hlen hb]
    exact Eq.trans
      (foldl_masks_eq_foldl_max seqs idxs
        (fun mIdxs => optimalScorePureF seqs (generateSubsetMasks seqs.length)
          (sumToNat mIdxs + 1) mIdxs)
        (generateSubsetMasks seqs.length) 0 (le_refl 0)) rfl
  · exact Solve_nonneg

set_option maxRecDepth 80000 in
theorem claim_C1_amended_witness :
    ([(1 : Int), 1].length
      = [convertStringSequence "A", convertStringSequence "C"].length) ∧
    ([(1 : Int), 1].any (fun i => decide (i ≤ 0)) = false) ∧
    ((optimalScoreRun [convertStringSequence "A", convertStringSequence "C"]
        [1, 1]).1
      = (specCandidates [convertStringSequence "A", convertStringSequence "C"]
          [1, 1]).foldl max 0 ∧
     ∀ strs : List String, 0 ≤ Solve strs) :=
  ⟨by decide, by decide,
    claim_C1_amended [convertStringSequence "A", convertStringSequence "C"]
      [1, 1] (by decide) (by decide)⟩

/-- Claim C9: a cache hit at a non-base coordinate returns the stored score
and leaves both grids untouched, and every run of the solver preserves the
flag and the stored score of every already-flagged coordinate (a coordinate
is never recomputed and its score never changes). -/
theorem claim_C9 (seqs : List Sequence) (masks : List (List Int)) (fuel : Nat)
    (idxs : List Int) (st : MemoState)
    (hb : idxs.any (fun i => decide (i ≤ 0)) = false)
    (hc : st.cached idxs = 1) :
    optimalScoreMemo seqs masks (fuel + 1) idxs st = (st.table idxs, st) ∧
    (∀ (fuel2 : Nat) (idxs2 : List Int) (st2 : MemoState) (c : List Int),
      st2.cached c = 1 →
      (optimalScoreMemo seqs masks fuel2 idxs2 st2).2.cached c = 1 ∧
      (optimalScoreMemo seqs masks fuel2 idxs2 st2).2.table c = st2.table c) :=
  ⟨optimalScoreMemo_hit seqs masks fuel hb hc,
    fun fuel2 idxs2 st2 c hc2 =>
      optimalScoreMemo_preserves seqs masks fuel2 idxs2 st2 c hc2⟩

theorem claim_C9_witness :
    ([(1 : Int)].any (fun i => decide (i ≤ 0)) = false) ∧
    (MemoState.cached ⟨fun c => if c = [1] then 5 else 0,
        fun c => if c = [1] then 1 else 0⟩ [1] = 1) ∧
    (optimalScoreMemo [] [[1]] (0 + 1) [1]
        ⟨fun c => if c = [1] then 5 else 0, fun c => if c = [1] then 1 else 0⟩
      = (MemoState.table ⟨fun c => if c = [1] then 5 else 0,
          fun c => if c = [1] then 1 else 0⟩ [1],
        ⟨fun c => if c = [1] then 5 else 0,
          fun c => if c = [1] then 1 else 0⟩) ∧
     (∀ (fuel2 : Nat) (idxs2 : List Int) (st2 : MemoState) (c : List Int),
       st2.cached c = 1 →
       (optimalScoreMemo [] [[1]] fuel2 idxs2 st2).2.cached c = 1 ∧
       (optimalScoreMemo [] [[1]] fuel2 idxs2 st2).2.table c
         = st2.table c)) :=
  ⟨by decide, by decide,
    claim_C9 [] [[1]] 0 [1]
      ⟨fun c => if c = [1] then 5 else 0, fun c => if c = [1] then 1 else 0⟩
      (by decide) (by decide)⟩

/-- Claim C10: the recursion terminates: every mask of the Column-Mask Set
has a set bit, every successful masked predecessor strictly decreases the
coordinate sum, the coordinate sum at the terminal coordinate is the sum of
the sequence lengths, and the recursion is stable once the fuel exceeds the
coordinate sum (so the recursion depth is bounded by the sum of lengths). -/
theorem claim_C10 (seqs : List Sequence) (idxs : List Int)
    (hlen : idxs.length = seqs.length) :
    (∀ mask ∈ generateSubsetMasks seqs.length, (1 : Int) ∈ mask) ∧
    (∀ mask ∈ generateSubsetMasks seqs.length, ∀ mIdxs : List Int,
      idxs.any (fun i => decide (i ≤ 0)) = false →
      maskedIdxs idxs mask = some mIdxs → sumToNat mIdxs < sumToNat idxs) ∧
    sumToNat (maxIndices seqs) = (seqs.map (fun sq => sq.bases.length)).sum ∧
    (∀ f g : Nat, sumToNat idxs < f → sumToNat idxs < g →
      optimalScorePureF seqs (generateSubsetMasks seqs.length) f idxs
        = optimalScorePureF seqs (generateSubsetMasks seqs.length) g idxs) := by
  refine ⟨?_, ?_, ?_, ?_⟩
  · intro mask hm
    exact (masksGood_generateSubsetMasks seqs.length mask hm).2.2
  · intro mask hm mIdxs hb hmi
    have hp := masksGood_generateSubsetMasks seqs.length mask hm
    exact maskedIdxs_sumToNat_lt hb hp.2.1 hp.2.2 (by rw [hp.1, hlen]) hmi
  · simp [sumToNat, maxIndices, sizes, List.map_map, Function.comp_def,
      add_sub_cancel_right]
  · intro f g hf hg
    exact optimalScorePureF_stable seqs _
      (masksGood_generateSubsetMasks seqs.length) f g idxs hlen hf hg

theorem claim_C10_witness :
    ([(1 : Int)].length = [convertStringSequence "A"].length) ∧
    ((∀ mask ∈ generateSubsetMasks [convertStringSequence "A"].length,
        (1 : Int) ∈ mask) ∧
     (∀ mask ∈ generateSubsetMasks [convertStringSequence "A"].length,
        ∀ mIdxs : List Int,
        [(1 : Int)].any (fun i => decide (i ≤ 0)) = false →
        maskedIdxs [(1 : Int)] mask = some mIdxs →
        sumToNat mIdxs < sumToNat [(1 : Int)]) ∧
     sumToNat (maxIndices [convertStringSequence "A"])
       = ([convertStringSequence "A"].map (fun sq => sq.bases.length)).sum ∧
     (∀ f g : Nat, sumToNat [(1 : Int)] < f → sumToNat [(1 : Int)] < g →
       optimalScorePureF [convertStringSequence "A"]
           (generateSubsetMasks [convertStringSequence "A"].length) f
           [(1 : Int)]
         = optimalScorePureF [convertStringSequence "A"]
             (generateSubsetMasks [convertStringSequence "A"].length) g
             [(1 : Int)])) :=
  ⟨by decide, claim_C10 [convertStringSequence "A"] [(1 : Int)] (by decide)⟩

/-! ### Permutation invariance: the column scorer -/

theorem pairScore_comm : ∀ a b : Base, pairScore a b = pairScore b a := by
  decide

theorem sum_map_add {α : Type} (f g : α → Int) (l : List α) :
    (l.map (fun a => f a + g a)).sum = (l.map f).sum + (l.map g).sum := by
  induction l with
  | nil => rfl
  | cons x t ih =>
    simp only [List.map_cons, List.sum_cons, ih]
    ring

theorem score_two_mul (l : List Base) :
    2 * score l
      = (l.map (fun a => (l.map (fun b => pairScore a b)).sum)).sum
        - (l.map (fun a => pairScore a a)).sum := by
  induction l with
  | nil => simp [score]
  | cons x t ih =>
    have h2 : (t.map (fun a => ((x :: t).map (fun b => pairScore a b)).sum)).sum
        = (t.map (fun a => pairScore a x
            + (t.map (fun b => pairScore a b)).sum)).sum := by
      refine congrArg List.sum (List.map_congr_left ?_)
      intro a _
      simp
    have hcomm : (t.map (fun a => pairScore a x)).sum
        = (t.map (fun b => pairScore x b)).sum :=
      congrArg List.sum (List.map_congr_left (fun a _ => pairScore_comm a x))
    simp only [score, List.map_cons, List.sum_cons, h2, sum_map_add, hcomm]
    linarith [ih]

theorem score_perm {l1 l2 : List Base} (h : l1.Perm l2) : score l1 = score l2 := by
  have hd : (l1.map (fun a => pairScore a a)).sum
      = (l2.map (fun a => pairScore a a)).sum := (h.map _).sum_eq
  have hq : (l1.map (fun a => (l1.map (fun b => pairScore a b)).sum)).sum
      = (l2.map (fun a => (l2.map (fun b => pairScore a b)).sum)).sum := by
    have hstep : (l1.map (fun a => (l1.map (fun b => pairScore a b)).sum)).sum
        = (l1.map (fun a => (l2.map (fun b => pairScore a b)).sum)).sum :=
      congrArg List.sum
        (List.map_congr_left (fun a _ => (h.map (fun b => pairScore a b)).sum_eq))
    exact hstep.trans ((h.map _).sum_eq)
  have h1 := score_two_mul l1
  have h2 := score_two_mul l2
  linarith

theorem perm_any {l1 l2 : List Int} (h : l1.Perm l2) (p : Int → Bool) :
    l1.any p = l2.any p := by
  cases h2 : l2.any p with
  | true =>
    rcases List.any_eq_true.mp h2 with ⟨v, hv, hpv⟩
    exact List.any_eq_true.mpr ⟨v, h.mem_iff.mpr hv, hpv⟩
  | false =>
    cases h1 : l1.any p with
    | false => rfl
    | true =>
      rcases List.any_eq_true.mp h1 with ⟨v, hv, hpv⟩
      have hne := List.any_eq_true.mpr ⟨v, h.mem_iff.mp hv, hpv⟩
      rw [h2] at hne
      cases hne

/-! ### Permutation invariance: componentwise helpers on ofFn vectors -/

theorem maskedIdxs_ofFn {k : Nat} (a b : Fin k → Int) :
    maskedIdxs (List.ofFn a) (List.ofFn b)
      = if ∀ i, 0 ≤ a i - b i
        then some (List.ofFn (fun i => a i - b i)) else none := by
  induction k with
  | zero =>
    rw [if_pos (fun i => i.elim0)]
    rfl
  | succ k ih =>
    rw [List.ofFn_succ, List.ofFn_succ]
    simp only [maskedIdxs, List.headD_cons, List.tail_cons]
    by_cases h0 : a 0 - b 0 < 0
    · rw [if_pos h0, if_neg]
      intro hall
      exact absurd (hall 0) (by omega)
    · rw [if_neg h0, ih (fun i => a i.succ) (fun i => b i.succ)]
      by_cases hrest : ∀ i : Fin k, 0 ≤ a i.succ - b i.succ
      · rw [if_pos hrest, if_pos]
        · simp only [Option.map_some']
          rw [List.ofFn_succ (f := fun i => a i - b i)]
        · intro i
          rcases Fin.eq_zero_or_eq_succ i with rfl | ⟨j, rfl⟩
          · omega
          · exact hrest j
      · rw [if_neg hrest, if_neg]
        · rfl
        · intro hall
          exact hrest (fun i => hall i.succ)

theorem maskedBases_ofFn {k : Nat} (g : Fin k → Sequence) (a b : Fin k → Int) :
    maskedBases (List.ofFn g) (List.ofFn a) (List.ofFn b)
      = List.ofFn (fun i =>
          if b i = 1 then (g i).bases.getD (a i - 1).toNat Base.X
          else Base.X) := by
  induction k with
  | zero => rfl
  | succ k ih =>
    rw [List.ofFn_succ (f := g), List.ofFn_succ (f := a), List.ofFn_succ (f := b)]
    simp only [maskedBases, List.headD_cons, List.tail_cons]
    rw [ih]
    conv_rhs => rw [List.ofFn_succ]

theorem list_eq_ofFn_getD {k : Nat} {m : List Int} (h : m.length = k) :
    m = List.ofFn (fun i : Fin k => m.getD i 0) := by
  apply List.ext_getElem
  · simp [h]
  · intro i h1 h2
    rw [List.getElem_ofFn]
    exact (List.getD_eq_getElem m 0 h1).symm

theorem ofFn_getD {k : Nat} (f : Fin k → Int) (i : Fin k) :
    (List.ofFn f).getD i 0 = f i := by
  have hi : (i : Nat) < (List.ofFn f).length := by simp [i.isLt]
  rw [List.getD_eq_getElem (List.ofFn f) 0 hi, List.getElem_ofFn]

/-! ### Permutation invariance: the mask set is closed under position permutation -/

theorem replicate_getD_zero {k : Nat} (i : Fin k) :
    (List.replicate k (0 : Int)).getD i 0 = 0 := by
  rw [List.getD_eq_getElem _ 0 (by simp [i.isLt])]
  simp

theorem act_mask_mem {k : Nat} (τ : Equiv.Perm (Fin k)) {m : List Int}
    (hm : m ∈ generateSubsetMasks k) :
    List.ofFn (fun i => m.getD (τ i) 0) ∈ generateSubsetMasks k := by
  rcases mem_generateSubsetMasks.mp hm with ⟨h1, h2, h3⟩
  apply mem_generateSubsetMasks.mpr
  refine ⟨by simp, ?_, ?_⟩
  · intro x hx
    rcases (List.mem_ofFn _ _).mp hx with ⟨i, rfl⟩
    have hik : ((τ i : Nat)) < m.length := by
      rw [h1]
      exact (τ i).isLt
    show m.getD (τ i) 0 = 0 ∨ m.getD (τ i) 0 = 1
    rw [List.getD_eq_getElem m 0 hik]
    exact h2 _ (List.getElem_mem _)
  · intro heq
    apply h3
    have hz : ∀ i : Fin k, m.getD (τ i) 0 = 0 := by
      intro i
      have hstep : (List.ofFn (fun i => m.getD (τ i) 0)).getD i 0
          = (List.replicate k (0 : Int)).getD i 0 := by rw [heq]
      rw [ofFn_getD, replicate_getD_zero] at hstep
      exact hstep
    have hzz : ∀ j : Fin k, m.getD j 0 = 0 := by
      intro j
      have := hz (τ.symm j)
      rwa [Equiv.apply_symm_apply] at this
    rw [list_eq_ofFn_getD h1,
      show (fun i : Fin k => m.getD i 0) = (fun _ : Fin k => (0 : Int)) from
        funext fun i => hzz i]
    exact List.ofFn_const k 0

theorem act_mask_perm {k : Nat} (σ : Equiv.Perm (Fin k)) :
    ((generateSubsetMasks k).map
        (fun m => List.ofFn (fun i => m.getD (σ.symm i) 0))).Perm
      (generateSubsetMasks k) := by
  rw [List.perm_ext_iff_of_nodup ?nd1 (nodup_generateSubsetMasks k)]
  case nd1 =>
    apply List.Nodup.map_on _ (nodup_generateSubsetMasks k)
    intro m1 hm1 m2 hm2 heq
    have h1 : m1.length = k := (mem_generateSubsetMasks.mp hm1).1
    have h2 : m2.length = k := (mem_generateSubsetMasks.mp hm2).1
    have hf := List.ofFn_inj.mp heq
    have hcomp : ∀ j : Fin k, m1.getD j 0 = m2.getD j 0 := by
      intro j
      have := congrFun hf (σ j)
      simpa [Equiv.symm_apply_apply] using this
    rw [list_eq_ofFn_getD h1, list_eq_ofFn_getD h2]
    exact congrArg List.ofFn (funext hcomp)
  intro a
  constructor
  · intro ha
    rcases List.mem_map.mp ha with ⟨m, hm, rfl⟩
    exact act_mask_mem σ.symm hm
  · intro ha
    apply List.mem_map.mpr
    refine ⟨List.ofFn (fun i => a.getD (σ i) 0), act_mask_mem σ ha, ?_⟩
    have hlen : a.length = k := (mem_generateSubsetMasks.mp ha).1
    have hpt : ∀ i : Fin k,
        (List.ofFn (fun i2 : Fin k => a.getD (σ i2) 0)).getD (σ.symm i) 0
          = a.getD i 0 := by
      intro i
      rw [ofFn_getD (fun i2 => a.getD (σ i2) 0) (σ.symm i),
        Equiv.apply_symm_apply]
    rw [show (fun i : Fin k =>
        (List.ofFn (fun i2 : Fin k => a.getD (σ i2) 0)).getD (σ.symm i) 0)
        = (fun i : Fin k => a.getD i 0) from funext hpt]
    exact (list_eq_ofFn_getD hlen).symm

theorem filterMap_ext_mem {α β : Type} (f g2 : α → Option β) (l : List α)
    (H : ∀ x ∈ l, f x = g2 x) : l.filterMap f = l.filterMap g2 := by
  induction l with
  | nil => rfl
  | cons x xs ih =>
    rw [List.filterMap_cons, List.filterMap_cons, H x (List.mem_cons_self x xs),
      ih (fun y hy => H y (List.mem_cons_of_mem x hy))]

theorem filterMap_comp_map {α β γ : Type} (f : α → β) (g2 : β → Option γ)
    (l : List α) :
    l.filterMap (fun a => g2 (f a)) = (l.map f).filterMap g2 := by
  induction l with
  | nil => rfl
  | cons x xs ih =>
    rw [List.map_cons, List.filterMap_cons, List.filterMap_cons, ih]

theorem optimalScorePureF_perm {k : Nat} (σ : Equiv.Perm (Fin k))
    (g : Fin k → Sequence) :
    ∀ (fuel : Nat) (x : Fin k → Int),
      optimalScorePureF (List.ofFn fun i => g (σ i)) (generateSubsetMasks k)
          fuel (List.ofFn fun i => x (σ i))
        = optimalScorePureF (List.ofFn g) (generateSubsetMasks k) fuel
            (List.ofFn x) := by
  intro fuel
  induction fuel with
  | zero => intro x; rfl
  | succ fuel ih =>
    intro x
    have hperm_idx : (List.ofFn fun i => x (σ i)).Perm (List.ofFn x) :=
      σ.ofFn_comp_perm x
    simp only [optimalScorePureF]
    rw [perm_any hperm_idx (fun i => decide (i ≤ 0))]
    by_cases hb : (List.ofFn x).any (fun i => decide (i ≤ 0)) = true
    · rw [if_pos hb, if_pos hb]
    · rw [if_neg hb, if_neg hb]
      have hpoint : ∀ m ∈ generateSubsetMasks k,
          (maskedIdxs (List.ofFn fun i => x (σ i)) m).map
            (fun mIdxs =>
              optimalScorePureF (List.ofFn fun i => g (σ i))
                  (generateSubsetMasks k) fuel mIdxs
                + score (maskedBases (List.ofFn fun i => g (σ i))
                    (List.ofFn fun i => x (σ i)) m))
          = (maskedIdxs (List.ofFn x)
                (List.ofFn fun i => m.getD (σ.symm i) 0)).map
              (fun mIdxs =>
                optimalScorePureF (List.ofFn g) (generateSubsetMasks k) fuel
                    mIdxs
                  + score (maskedBases (List.ofFn g) (List.ofFn x)
                      (List.ofFn fun i => m.getD (σ.symm i) 0))) := by
        intro m hm
        have hlen : m.length = k := (mem_generateSubsetMasks.mp hm).1
        obtain ⟨y, rfl⟩ : ∃ y : Fin k → Int, m = List.ofFn y :=
          ⟨_, list_eq_ofFn_getD hlen⟩
        simp only [ofFn_getD]
        rw [maskedIdxs_ofFn (fun i => x (σ i)) y,
          maskedIdxs_ofFn x (fun i => y (σ.symm i)),
          maskedBases_ofFn (fun i => g (σ i)) (fun i => x (σ i)) y,
          maskedBases_ofFn g x (fun i => y (σ.symm i))]
        have hiff : (∀ i, 0 ≤ x (σ i) - y i)
            ↔ (∀ j, 0 ≤ x j - y (σ.symm j)) := by
          constructor
          · intro h j
            have := h (σ.symm j)
            rwa [Equiv.apply_symm_apply] at this
          · intro h i
            have := h (σ i)
            rwa [Equiv.symm_apply_apply] at this
        by_cases hC : ∀ j, 0 ≤ x j - y (σ.symm j)
        · rw [if_pos (hiff.mpr hC), if_pos hC]
          simp only [Option.map_some']
          have hz : (fun i => x (σ i) - y i)
              = (fun i => (fun j => x j - y (σ.symm j)) (σ i)) := by
            funext i
            simp [Equiv.symm_apply_apply]
          rw [hz, ih (fun j => x j - y (σ.symm j))]
          have hw : (fun i => if y i = 1
              then (g (σ i)).bases.getD (x (σ i) - 1).toNat Base.X
              else Base.X)
              = (fun i => (fun j => if y (σ.symm j) = 1
                  then (g j).bases.getD (x j - 1).toNat Base.X else Base.X)
                (σ i)) := by
            funext i
            simp [Equiv.symm_apply_apply]
          have hsc : score (List.ofFn fun i =>
              (fun j => if y (σ.symm j) = 1
                then (g j).bases.getD (x j - 1).toNat Base.X else Base.X)
                (σ i))
              = score (List.ofFn fun j => if y (σ.symm j) = 1
                then (g j).bases.getD (x j - 1).toNat Base.X else Base.X) :=
            score_perm (σ.ofFn_comp_perm
              (fun j => if y (σ.symm j) = 1
                then (g j).bases.getD (x j - 1).toNat Base.X else Base.X))
          rw [hw, hsc]
        · rw [if_neg (fun h => hC (hiff.mp h)), if_neg hC]
          rfl
      have hcand : ((generateSubsetMasks k).filterMap
            (fun mask => (maskedIdxs (List.ofFn fun i => x (σ i)) mask).map
              (fun mIdxs =>
                optimalScorePureF (List.ofFn fun i => g (σ i))
                    (generateSubsetMasks k) fuel mIdxs
                  + score (maskedBases (List.ofFn fun i => g (σ i))
                      (List.ofFn fun i => x (σ i)) mask)))).Perm
          ((generateSubsetMasks k).filterMap
            (fun mask => (maskedIdxs (List.ofFn x) mask).map
              (fun mIdxs =>
                optimalScorePureF (List.ofFn g) (generateSubsetMasks k) fuel
                    mIdxs
                  + score (maskedBases (List.ofFn g) (List.ofFn x) mask)))) := by
        rw [filterMap_ext_mem _ _ _ hpoint,
          filterMap_comp_map (fun m => List.ofFn fun i => m.getD (σ.symm i) 0)
            (fun mask => (maskedIdxs (List.ofFn x) mask).map
              (fun mIdxs =>
                optimalScorePureF (List.ofFn g) (generateSubsetMasks k) fuel
                    mIdxs
                  + score (maskedBases (List.ofFn g) (List.ofFn x) mask)))
            (generateSubsetMasks k)]
        exact List.Perm.filterMap _ (act_mask_perm σ)
      exact (foldl_masks_eq_foldl_max (List.ofFn fun i => g (σ i))
          (List.ofFn fun i => x (σ i))
          (optimalScorePureF (List.ofFn fun i => g (σ i))
            (generateSubsetMasks k) fuel)
          (generateSubsetMasks k) 0 (le_refl 0)).trans
        ((foldl_max_perm hcand 0).trans
          (foldl_masks_eq_foldl_max (List.ofFn g) (List.ofFn x)
            (optimalScorePureF (List.ofFn g) (generateSubsetMasks k) fuel)
            (generateSubsetMasks k) 0 (le_refl 0)).symm)

/-- Claim C8: permuting the input sequence list does not change the score
returned by Solve. -/
theorem claim_C8 (l : List String) (σ : Equiv.Perm (Fin l.length)) :
    Solve (List.ofFn fun i => l.get (σ i)) = Solve l := by
  have hseqP : (List.ofFn fun i => l.get (σ i)).map convertStringSequence
      = List.ofFn (fun i => convertStringSequence (l.get (σ i))) := by
    rw [List.map_ofFn]
    rfl
  have hseqO : l.map convertStringSequence
      = List.ofFn (fun j => convertStringSequence (l.get j)) := by
    conv_lhs => rw [← List.ofFn_get l]
    rw [List.map_ofFn]
    rfl
  have hmaxP : maxIndices
        (List.ofFn (fun i => convertStringSequence (l.get (σ i))))
      = List.ofFn (fun i =>
          ((convertStringSequence (l.get (σ i))).bases.length : Int)
            + 1 - 1) := by
    unfold maxIndices sizes
    rw [List.map_ofFn, List.map_ofFn]
    rfl
  have hmaxO : maxIndices (List.ofFn (fun j => convertStringSequence (l.get j)))
      = List.ofFn (fun j =>
          ((convertStringSequence (l.get j)).bases.length : Int) + 1 - 1) := by
    unfold maxIndices sizes
    rw [List.map_ofFn, List.map_ofFn]
    rfl
  have key : optimalScorePure
      ((List.ofFn fun i => l.get (σ i)).map convertStringSequence)
      (maxIndices ((List.ofFn fun i => l.get (σ i)).map convertStringSequence))
      = optimalScorePure (l.map convertStringSequence)
          (maxIndices (l.map convertStringSequence)) := by
    rw [hseqP, hseqO, hmaxP, hmaxO]
    unfold optimalScorePure
    simp only [List.length_ofFn]
    have hsum : sumToNat (List.ofFn (fun i =>
        ((convertStringSequence (l.get (σ i))).bases.length : Int) + 1 - 1))
        = sumToNat (List.ofFn (fun j =>
            ((convertStringSequence (l.get j)).bases.length : Int) + 1 - 1)) := by
      unfold sumToNat
      exact ((σ.ofFn_comp_perm (fun j =>
        ((convertStringSequence (l.get j)).bases.length : Int) + 1 - 1)).map
          Int.toNat).sum_eq
    rw [hsum]
    exact optimalScorePureF_perm σ (fun j => convertStringSequence (l.get j))
      (sumToNat (List.ofFn (fun j =>
        ((convertStringSequence (l.get j)).bases.length : Int) + 1 - 1)) + 1)
      (fun j => ((convertStringSequence (l.get j)).bases.length : Int) + 1 - 1)
  unfold Solve
  rw [solve_eq_pure, solve_eq_pure, key]
